import Mathlib

/-!
Verification of the Smart Book Shuffler core (`src/app.py`) against its
specification.  The Python program is shallowly embedded: the persistence
store (a JSON object keyed by book title) is modelled as an insertion-ordered
association list, external Gemini calls are modelled as explicit oracle
arguments (`Except Unit _`: an exception or a parsed response), and every
controller operation is a pure function from the loaded library state to the
saved one.
-/

namespace Reader

/-- `SEGMENT_WORD_COUNT = 5000` from `app.py`. -/
def SEGMENT_WORD_COUNT : Nat := 5000

/-- Model of Python `str.split()` with no arguments: split on runs of
whitespace, never producing empty words.  `acc` is the word currently being
accumulated. -/
def splitWordsAux : List Char → List Char → List String
  | [], acc => if acc = [] then [] else [String.mk acc]
  | c :: cs, acc =>
    if c.isWhitespace then
      if acc = [] then splitWordsAux cs []
      else String.mk acc :: splitWordsAux cs []
    else splitWordsAux cs (acc ++ [c])

/-- Python `s.split()` as used by `app.py` (`book_content.split()` etc.). -/
def pySplit (s : String) : List String :=
  splitWordsAux s.data []

/-- A stored book record: the value part of one entry of `books_data.json`,
see `process_uploaded_book` (`'segments'`, `'current_index'`,
`'total_segments'`). -/
structure BookRecord where
  segments : List String
  current_index : Nat
  total_segments : Nat
deriving Repr, DecidableEq

/-- The persisted library: a Python `dict` from book title to record,
modelled as an insertion-ordered association list. -/
abbrev Library := List (String × BookRecord)

/-! ## The fallback segmenter (except-branch of `segment_book_with_gemini`) -/

/-- One iteration of the `for word in words` loop of the fallback segmenter
(lines 133-140 of `app.py`).  The state is
`(segments, current_segment, current_word_count)`; segments are kept as word
lists here and joined with single spaces at collection time (the Python code
joins at append time, which yields the same list of joined strings). -/
def fallbackStep (st : List (List String) × List String × Nat) (word : String) :
    List (List String) × List String × Nat :=
  match st with
  | (segments, current_segment, current_word_count) =>
    let current_segment := current_segment ++ [word]
    let current_word_count := current_word_count + 1
    if SEGMENT_WORD_COUNT ≤ current_word_count then
      (segments ++ [current_segment], [], 0)
    else
      (segments, current_segment, current_word_count)

/-- Lines 142-144 of `app.py`: add the remaining words as a last segment. -/
def flushTail (st : List (List String) × List String × Nat) : List (List String) :=
  match st with
  | (segments, current_segment, _) =>
    if current_segment = [] then segments else segments ++ [current_segment]

/-- The fallback segmenter at the level of word sequences: the list of word
lists of the produced segments, in order. -/
def fallback_segment_words (words : List String) : List (List String) :=
  flushTail (words.foldl fallbackStep ([], [], 0))

/-- Lines 127-146 of `app.py`: simple word-count based segmentation of
`book_content`, each produced segment being its words joined by single
spaces. -/
def fallback_segmentation (book_content : String) : List String :=
  (fallback_segment_words (pySplit book_content)).map (String.intercalate " ")

/-- Reference chunking function: split a list into consecutive chunks of
`SEGMENT_WORD_COUNT` elements, the last chunk possibly shorter. -/
def chunkList (l : List String) : List (List String) :=
  if h : l = [] then []
  else l.take SEGMENT_WORD_COUNT :: chunkList (l.drop SEGMENT_WORD_COUNT)
termination_by l.length
decreasing_by
  simp only [List.length_drop]
  have hpos : 0 < l.length := List.length_pos.mpr h
  have : 0 < SEGMENT_WORD_COUNT := by decide
  omega

theorem chunkList_nil : chunkList [] = [] := by
  rw [chunkList]
  simp

theorem chunkList_cons {l : List String} (h : l ≠ []) :
    chunkList l = l.take SEGMENT_WORD_COUNT :: chunkList (l.drop SEGMENT_WORD_COUNT) := by
  rw [chunkList]
  simp [h]

theorem foldl_fallbackStep_eq_chunkList :
    ∀ (ws : List String) (segs : List (List String)) (cur : List String),
      cur.length < SEGMENT_WORD_COUNT →
      flushTail (ws.foldl fallbackStep (segs, cur, cur.length)) = segs ++ chunkList (cur ++ ws) := by
  intro ws
  induction ws with
  | nil =>
    intro segs cur hc
    simp only [List.foldl_nil, flushTail, List.append_nil]
    by_cases h : cur = []
    · simp [h, chunkList_nil]
    · rw [if_neg h, chunkList_cons h, List.take_of_length_le (Nat.le_of_lt hc),
        List.drop_eq_nil_of_le (Nat.le_of_lt hc), chunkList_nil]
  | cons w ws ih =>
    intro segs cur hc
    rw [List.foldl_cons]
    show flushTail (ws.foldl fallbackStep (fallbackStep (segs, cur, cur.length) w)) = _
    rw [fallbackStep]
    by_cases hk : SEGMENT_WORD_COUNT ≤ cur.length + 1
    · rw [if_pos hk]
      have hlen : (cur ++ [w]).length = SEGMENT_WORD_COUNT := by
        simp only [List.length_append, List.length_cons, List.length_nil]
        omega
      have h0 : (0 : Nat) < SEGMENT_WORD_COUNT := by decide
      have hz : ([] : List String).length = 0 := rfl
      rw [show (0 : Nat) = ([] : List String).length from rfl]
      rw [ih (segs ++ [cur ++ [w]]) [] (by simpa using h0)]
      have hne : cur ++ w :: ws ≠ [] := by
        intro hcontra
        have := congrArg List.length hcontra
        simp at this
      rw [chunkList_cons hne]
      have hsplit : cur ++ w :: ws = (cur ++ [w]) ++ ws := by simp
      rw [hsplit, ← hlen, List.take_left, List.drop_left]
      simp
    · rw [if_neg hk]
      have hc' : (cur ++ [w]).length < SEGMENT_WORD_COUNT := by
        simp only [List.length_append, List.length_cons, List.length_nil]
        omega
      have hcount : cur.length + 1 = (cur ++ [w]).length := by simp
      rw [hcount, ih segs (cur ++ [w]) hc']
      simp

theorem fallback_segment_words_eq_chunkList (words : List String) :
    fallback_segment_words words = chunkList words := by
  have h := foldl_fallbackStep_eq_chunkList words [] []
    (by simp [SEGMENT_WORD_COUNT])
  simpa [fallback_segment_words] using h

theorem chunkList_flatten (l : List String) : (chunkList l).flatten = l := by
  induction l using chunkList.induct with
  | case1 => simp [chunkList_nil]
  | case2 l h ih =>
    rw [chunkList_cons h, List.flatten_cons, ih, List.take_append_drop]

theorem chunkList_length (l : List String) :
    (chunkList l).length = (l.length + (SEGMENT_WORD_COUNT - 1)) / SEGMENT_WORD_COUNT := by
  induction l using chunkList.induct with
  | case1 => simp [chunkList_nil, SEGMENT_WORD_COUNT]
  | case2 l h ih =>
    rw [chunkList_cons h, List.length_cons, ih, List.length_drop]
    have hpos : 0 < l.length := List.length_pos.mpr h
    simp only [SEGMENT_WORD_COUNT] at *
    omega

theorem chunkList_ne_nil {l : List String} (h : l ≠ []) : chunkList l ≠ [] := by
  rw [chunkList_cons h]
  simp

theorem chunkList_sizes (l : List String) :
    (∀ c ∈ (chunkList l).dropLast, c.length = SEGMENT_WORD_COUNT) ∧
    (∀ c ∈ chunkList l, c ≠ [] ∧ c.length ≤ SEGMENT_WORD_COUNT) := by
  induction l using chunkList.induct with
  | case1 => simp [chunkList_nil]
  | case2 l h ih =>
    rw [chunkList_cons h]
    have hpos : 0 < l.length := List.length_pos.mpr h
    obtain ⟨ih1, ih2⟩ := ih
    constructor
    · intro c hc
      by_cases hrest : l.drop SEGMENT_WORD_COUNT = []
      · rw [hrest, chunkList_nil] at hc
        simp at hc
      · rw [List.dropLast_cons_of_ne_nil (chunkList_ne_nil hrest)] at hc
        rcases List.mem_cons.mp hc with hc | hc
        · subst hc
          rw [List.length_take]
          rw [List.drop_eq_nil_iff] at hrest
          omega
        · exact ih1 c hc
    · intro c hc
      rcases List.mem_cons.mp hc with hc | hc
      · subst hc
        constructor
        · intro hcontra
          have hlen0 := congrArg List.length hcontra
          rw [List.length_take] at hlen0
          have hk : 0 < SEGMENT_WORD_COUNT := by decide
          simp only [List.length_nil] at hlen0
          omega
        · rw [List.length_take]
          omega
      · exact ih2 c hc

/-- Claim C1: on every non-empty word sequence of length `n` the fallback
segmenter produces exactly `ceil(n/5000)` segments, each of exactly 5000
words except possibly the last (and none empty), and concatenating the
segments' word sequences in order reproduces the input. -/
theorem fallback_segmenter_spec (words : List String) (h : words ≠ []) :
    (fallback_segment_words words).length =
      (words.length + (SEGMENT_WORD_COUNT - 1)) / SEGMENT_WORD_COUNT ∧
    (∀ c ∈ (fallback_segment_words words).dropLast, c.length = SEGMENT_WORD_COUNT) ∧
    (∀ c ∈ fallback_segment_words words, c ≠ [] ∧ c.length ≤ SEGMENT_WORD_COUNT) ∧
    (fallback_segment_words words).flatten = words := by
  rw [fallback_segment_words_eq_chunkList]
  exact ⟨chunkList_length words, (chunkList_sizes words).1, (chunkList_sizes words).2,
    chunkList_flatten words⟩

theorem fallback_segmenter_spec_witness :
    (["alpha"] : List String) ≠ [] ∧
    ((fallback_segment_words ["alpha"]).length =
        ((["alpha"] : List String).length + (SEGMENT_WORD_COUNT - 1)) / SEGMENT_WORD_COUNT ∧
      (∀ c ∈ (fallback_segment_words ["alpha"]).dropLast, c.length = SEGMENT_WORD_COUNT) ∧
      (∀ c ∈ fallback_segment_words ["alpha"], c ≠ [] ∧ c.length ≤ SEGMENT_WORD_COUNT) ∧
      (fallback_segment_words ["alpha"]).flatten = ["alpha"]) :=
  ⟨by decide, fallback_segmenter_spec ["alpha"] (by decide)⟩

/-! ## The segmenter entry point -/

/-- `segment_book_with_gemini` (lines 81-146 of `app.py`).  The external part
of the try branch (the Gemini call, code-fence stripping and `json.loads`,
lines 85-118) is modelled by the `gemini` oracle: `Except.error` covers any
exception raised there (network, auth, parse, non-list response) and
`Except.ok segments` a successfully parsed JSON array of strings.  The
explicit check of lines 120-121 raises `ValueError` on an empty list, which
the same `except` clause catches, so an empty parsed list also falls back.
(`book_title` only enters the prompt, hence is absorbed into the oracle.) -/
def segment_book_with_gemini (gemini : Except Unit (List String))
    (book_content : String) : List String :=
  match gemini with
  | Except.ok segments =>
    if segments.length = 0 then fallback_segmentation book_content else segments
  | Except.error _ => fallback_segmentation book_content

/-- Claim C2 (counterexample): `" "` is a non-empty `fullText`, yet the
segmenter's fallback path returns the empty list on it, because Python
`str.split()` yields no words on whitespace-only input. -/
theorem segment_empty_on_blank_input :
    (" " : String) ≠ "" ∧ segment_book_with_gemini (Except.error ()) " " = [] := by
  constructor
  · decide
  · rfl

theorem fallback_segmentation_ne_nil {content : String} (h : pySplit content ≠ []) :
    fallback_segmentation content ≠ [] := by
  unfold fallback_segmentation
  rw [fallback_segment_words_eq_chunkList]
  intro hc
  exact chunkList_ne_nil h (by simpa using hc)

/-- Claim C2 (amended): for every `fullText` whose whitespace-split word
sequence is non-empty (it contains a non-whitespace character), the segmenter
returns a non-empty list, on every oracle outcome. -/
theorem segment_nonempty_of_words_nonempty (gemini : Except Unit (List String))
    (content : String) (h : pySplit content ≠ []) :
    segment_book_with_gemini gemini content ≠ [] := by
  cases gemini with
  | error e => exact fallback_segmentation_ne_nil h
  | ok segments =>
    show (if segments.length = 0 then fallback_segmentation content else segments) ≠ []
    by_cases hs : segments.length = 0
    · rw [if_pos hs]
      exact fallback_segmentation_ne_nil h
    · rw [if_neg hs]
      intro hc
      exact hs (by rw [hc]; rfl)

theorem segment_nonempty_witness :
    pySplit "hello" ≠ [] ∧ segment_book_with_gemini (Except.error ()) "hello" ≠ [] :=
  ⟨by decide, segment_nonempty_of_words_nonempty (Except.error ()) "hello" (by decide)⟩

/-! ## The persistence dictionary -/

/-- Python `books_data[k] = v`: replace in place when the key exists,
append otherwise (insertion-ordered `dict` assignment). -/
def dictInsert (lib : Library) (k : String) (v : BookRecord) : Library :=
  if lib.any (fun p => p.1 == k) then
    lib.map (fun p => if p.1 == k then (k, v) else p)
  else lib ++ [(k, v)]

/-- Python `books_data[k]` lookup, as an `Option`. -/
def dictGet (lib : Library) (k : String) : Option BookRecord :=
  (lib.find? (fun p => p.1 == k)).map Prod.snd

theorem find?_map_update_self (lib : Library) (k : String) (v : BookRecord)
    (h : lib.any (fun p => p.1 == k) = true) :
    (lib.map (fun p => if p.1 == k then (k, v) else p)).find? (fun p => p.1 == k) =
      some (k, v) := by
  induction lib with
  | nil => simp at h
  | cons a tl ih =>
    rw [List.map_cons]
    by_cases ha : (a.1 == k) = true
    · rw [if_pos ha, List.find?_cons_of_pos _ (by simp)]
    · rw [if_neg ha, List.find?_cons_of_neg _ (by simpa using ha)]
      apply ih
      simpa [ha] using h

theorem dictGet_dictInsert_self (lib : Library) (k : String) (v : BookRecord) :
    dictGet (dictInsert lib k v) k = some v := by
  unfold dictInsert dictGet
  by_cases h : lib.any (fun p => p.1 == k) = true
  · rw [if_pos h, find?_map_update_self lib k v h]
    rfl
  · rw [if_neg h, List.find?_append]
    have hnone : lib.find? (fun p => p.1 == k) = none := by
      rw [List.find?_eq_none]
      intro x hx hpx
      exact h (List.any_eq_true.mpr ⟨x, hx, hpx⟩)
    rw [hnone]
    simp

theorem find?_map_update_ne (lib : Library) (k : String) (v : BookRecord) (t : String)
    (hne : t ≠ k) :
    (lib.map (fun p => if p.1 == k then (k, v) else p)).find? (fun p => p.1 == t) =
      lib.find? (fun p => p.1 == t) := by
  induction lib with
  | nil => rfl
  | cons a tl ih =>
    rw [List.map_cons]
    by_cases ha : (a.1 == k) = true
    · have hak : a.1 = k := by simpa using ha
      rw [if_pos ha, List.find?_cons_of_neg _ (by simp [Ne.symm hne]),
        List.find?_cons_of_neg _ (by simp [hak, Ne.symm hne])]
      exact ih
    · rw [if_neg ha]
      by_cases hat : (a.1 == t) = true
      · rw [List.find?_cons_of_pos _ (by simpa using hat),
          List.find?_cons_of_pos _ (by simpa using hat)]
      · rw [List.find?_cons_of_neg _ (by simpa using hat),
          List.find?_cons_of_neg _ (by simpa using hat)]
        exact ih

theorem dictGet_dictInsert_ne (lib : Library) (k : String) (v : BookRecord)
    (t : String) (hne : t ≠ k) :
    dictGet (dictInsert lib k v) t = dictGet lib t := by
  unfold dictInsert dictGet
  by_cases h : lib.any (fun p => p.1 == k) = true
  · rw [if_pos h, find?_map_update_ne lib k v t hne]
  · rw [if_neg h, List.find?_append]
    have : List.find? (fun p => p.1 == t) [(k, v)] = none := by
      simp [Ne.symm hne]
    rw [this]
    cases lib.find? (fun p => p.1 == t) <;> rfl

theorem dictGet_of_mem {lib : Library} {t : String} {rec : BookRecord}
    (hnd : (lib.map Prod.fst).Nodup) (hmem : (t, rec) ∈ lib) :
    dictGet lib t = some rec := by
  induction lib with
  | nil => cases hmem
  | cons a tl ih =>
    rw [List.map_cons, List.nodup_cons] at hnd
    rcases List.mem_cons.mp hmem with heq | hmem'
    · subst heq
      unfold dictGet
      rw [List.find?_cons_of_pos _ (by simp)]
      rfl
    · have hat : a.1 ≠ t := by
        intro hcontra
        exact hnd.1 (hcontra ▸ List.mem_map_of_mem Prod.fst hmem')
      unfold dictGet
      rw [List.find?_cons_of_neg _ (by simp [hat])]
      exact ih hnd.2 hmem'

theorem mem_dictInsert {lib : Library} {k : String} {v : BookRecord} {p : String × BookRecord}
    (h : p ∈ dictInsert lib k v) : p = (k, v) ∨ p ∈ lib := by
  unfold dictInsert at h
  by_cases hany : lib.any (fun q => q.1 == k) = true
  · rw [if_pos hany] at h
    obtain ⟨q, hq, hEq⟩ := List.mem_map.mp h
    by_cases hqk : (q.1 == k) = true
    · rw [if_pos hqk] at hEq
      exact Or.inl hEq.symm
    · rw [if_neg hqk] at hEq
      exact Or.inr (hEq ▸ hq)
  · rw [if_neg hany] at h
    rcases List.mem_append.mp h with h | h
    · exact Or.inr h
    · exact Or.inl (by simpa using h)

/-! ## Ingestion -/

/-- `process_uploaded_book` (lines 187-203 of `app.py`): segment the uploaded
text and store the record under the title with cursor 0 — unconditionally,
with no emptiness check on the segmentation result. -/
def process_uploaded_book (gemini : Except Unit (List String))
    (books_data : Library) (book_title book_content : String) : Library :=
  let segments := segment_book_with_gemini gemini book_content
  dictInsert books_data book_title
    { segments := segments, current_index := 0, total_segments := segments.length }

/-- Claim C3 (counterexample): on a whitespace-only upload with a failing
external call, segmentation yields zero segments, yet `process_uploaded_book`
still persists the record: starting from the empty store, the store afterward
contains a record whose `segments` list is empty. -/
theorem ingest_persists_empty_record :
    segment_book_with_gemini (Except.error ()) " " = [] ∧
    process_uploaded_book (Except.error ()) [] "book" " " =
      [("book", { segments := [], current_index := 0, total_segments := 0 })] := by
  constructor
  · rfl
  · rfl

/-- Claim C3 (amended): ingest always persists: after `process_uploaded_book`
the title maps to a record holding exactly the freshly computed segments,
cursor 0 and `total_segments = len(segments)` — including a zero-segment
record when segmentation yields zero segments.  The store is never left
unchanged. -/
theorem ingest_always_stores (gemini : Except Unit (List String))
    (books_data : Library) (book_title book_content : String) :
    dictGet (process_uploaded_book gemini books_data book_title book_content) book_title =
      some { segments := segment_book_with_gemini gemini book_content,
             current_index := 0,
             total_segments := (segment_book_with_gemini gemini book_content).length } :=
  dictGet_dictInsert_self books_data book_title _

/-! ## The library/progress controller -/

/-- The tuple returned by `get_random_unread_segment` (line 236 of
`app.py`). -/
structure SegResult where
  book_title : String
  segment_text : String
  segment_index : Nat
  is_first_segment : Bool
  previous_segment : Option String
deriving Repr, DecidableEq

/-- Lines 216-219 of `app.py`: the books that still have unread segments. -/
def available_books (books_data : Library) : Library :=
  books_data.filter (fun p => p.2.current_index < p.2.total_segments)

/-- `get_random_unread_segment` (lines 205-236 of `app.py`).  `pick` models
the draw of `random.choice`: the chosen element is the one at index
`pick % len(available_books)` (for `pick` uniform on a range of multiples of
the length, this is exactly a uniform choice).  Python list indexing
`segments[current_index]` would raise `IndexError` out of range; that
(unreachable for stores written by this program) case is mapped to `none`.
The function returns the result tuple together with the saved store. -/
def get_random_unread_segment (pick : Nat) (books_data : Library) :
    Option (SegResult × Library) :=
  if books_data = [] then none
  else if available_books books_data = [] then none
  else
    let chosen := (available_books books_data).getD
      (pick % (available_books books_data).length) ("", ⟨[], 0, 0⟩)
    match chosen.2.segments[chosen.2.current_index]? with
    | none => none
    | some segment_text =>
      some (⟨chosen.1, segment_text, chosen.2.current_index, chosen.2.current_index == 0,
             if 0 < chosen.2.current_index then chosen.2.segments[chosen.2.current_index - 1]?
             else none⟩,
            dictInsert books_data chosen.1
              { chosen.2 with current_index := chosen.2.current_index + 1 })

/-- `calculate_progress` (lines 238-242 of `app.py`), with Python float
arithmetic modelled over `ℚ` (the quotient of the small integers involved is
exact). -/
def calculate_progress (book_data : BookRecord) : ℚ :=
  if book_data.total_segments = 0 then 0
  else ((book_data.current_index : ℚ) / (book_data.total_segments : ℚ)) * 100

/-- `reset_book_progress` (lines 244-250 of `app.py`): set the title's cursor
back to 0 when present, no-op otherwise. -/
def reset_book_progress (books_data : Library) (book_title : String) : Library :=
  if books_data.any (fun p => p.1 == book_title) then
    books_data.map (fun p =>
      if p.1 == book_title then (p.1, { p.2 with current_index := 0 }) else p)
  else books_data

/-- `delete_book` (lines 252-258 of `app.py`): remove the title when present,
no-op otherwise. -/
def delete_book (books_data : Library) (book_title : String) : Library :=
  if books_data.any (fun p => p.1 == book_title) then
    books_data.filter (fun p => p.1 != book_title)
  else books_data

/-- The "Reset All Progress" loop of `main` (lines 352-354 of `app.py`):
reset every title of the current store in turn. -/
def reset_all_progress (books_data : Library) : Library :=
  (books_data.map Prod.fst).foldl reset_book_progress books_data

/-- Well-formedness of a store state as described by the spec's data model:
titles are unique (Python `dict` keys) and `total_segments` equals
`len(segments)` (it is set to exactly that at creation and never changed). -/
abbrev WF (books_data : Library) : Prop :=
  (books_data.map Prod.fst).Nodup ∧
  ∀ p ∈ books_data, p.2.total_segments = p.2.segments.length

/-- The spec's cursor invariant: `0 <= currentIndex <= totalSegments`
(the lower bound is inherent to `Nat`). -/
abbrev Inv (books_data : Library) : Prop :=
  ∀ p ∈ books_data, p.2.current_index ≤ p.2.total_segments

theorem next_eq_none_of_available_nil {books_data : Library} (pick : Nat)
    (h : available_books books_data = []) :
    get_random_unread_segment pick books_data = none := by
  by_cases hl : books_data = []
  · simp [get_random_unread_segment, hl]
  · simp [get_random_unread_segment, hl, h]

theorem next_unread_eq (pick : Nat) (books_data : Library) (title : String)
    (rec : BookRecord) (hlen : rec.current_index < rec.segments.length)
    (hchosen : (available_books books_data)[pick % (available_books books_data).length]? =
      some (title, rec)) :
    get_random_unread_segment pick books_data =
      some (⟨title, rec.segments.getD rec.current_index "", rec.current_index,
             rec.current_index == 0,
             if 0 < rec.current_index then rec.segments[rec.current_index - 1]? else none⟩,
            dictInsert books_data title { rec with current_index := rec.current_index + 1 }) := by
  have hav : available_books books_data ≠ [] := by
    intro hnil
    rw [hnil] at hchosen
    simp at hchosen
  have hl : books_data ≠ [] := by
    intro hnil
    apply hav
    rw [hnil]
    rfl
  have hchosen' : (available_books books_data).getD
      (pick % (available_books books_data).length) ("", ⟨[], 0, 0⟩) = (title, rec) := by
    rw [List.getD_eq_getElem?_getD, hchosen]
    rfl
  have hseg : rec.segments[rec.current_index]? =
      some (rec.segments.getD rec.current_index "") := by
    rw [List.getD_eq_getElem?_getD, List.getElem?_eq_getElem hlen]
    rfl
  unfold get_random_unread_segment
  rw [if_neg hl, if_neg hav]
  simp only [hchosen', hseg]

theorem next_unread_some_inv {pick : Nat} {books_data : Library} {r : SegResult}
    {lib' : Library}
    (h : get_random_unread_segment pick books_data = some (r, lib')) :
    ∃ rec : BookRecord,
      (r.book_title, rec) ∈ available_books books_data ∧
      rec.current_index < rec.total_segments ∧
      r.segment_index = rec.current_index ∧
      rec.segments[rec.current_index]? = some r.segment_text ∧
      r.is_first_segment = (rec.current_index == 0) ∧
      r.previous_segment =
        (if 0 < rec.current_index then rec.segments[rec.current_index - 1]? else none) ∧
      lib' = dictInsert books_data r.book_title
        { rec with current_index := rec.current_index + 1 } := by
  unfold get_random_unread_segment at h
  by_cases hl : books_data = []
  · rw [if_pos hl] at h
    exact absurd h (by simp)
  rw [if_neg hl] at h
  by_cases hav : available_books books_data = []
  · rw [if_pos hav] at h
    exact absurd h (by simp)
  rw [if_neg hav] at h
  have hlt : pick % (available_books books_data).length <
      (available_books books_data).length :=
    Nat.mod_lt _ (List.length_pos.mpr hav)
  obtain ⟨a, ha⟩ : ∃ x, (available_books books_data)[pick %
      (available_books books_data).length]? = some x := by
    rw [List.getElem?_eq_getElem hlt]
    exact ⟨_, rfl⟩
  have hmem : a ∈ available_books books_data := List.getElem?_mem ha
  have hchosen' : (available_books books_data).getD
      (pick % (available_books books_data).length) ("", ⟨[], 0, 0⟩) = a := by
    rw [List.getD_eq_getElem?_getD, ha]
    rfl
  rw [hchosen'] at h
  simp only [] at h
  cases hseg : a.2.segments[a.2.current_index]? with
  | none =>
    rw [hseg] at h
    exact absurd h (by simp)
  | some s =>
    rw [hseg] at h
    rw [Option.some.injEq, Prod.mk.injEq] at h
    obtain ⟨h1, h2⟩ := h
    subst h1
    subst h2
    have helig : a.2.current_index < a.2.total_segments := by
      have := (List.mem_filter.mp hmem).2
      exact of_decide_eq_true this
    refine ⟨a.2, ?_, helig, rfl, hseg, rfl, rfl, rfl⟩
    simpa using hmem

/-! ## Reset and delete lemmas -/

theorem any_of_dictGet_some {lib : Library} {t : String} {rec : BookRecord}
    (h : dictGet lib t = some rec) : lib.any (fun p => p.1 == t) = true := by
  unfold dictGet at h
  cases hf : lib.find? (fun p => p.1 == t) with
  | none =>
    rw [hf] at h
    simp at h
  | some q =>
    have hq := List.find?_some hf
    exact List.any_eq_true.mpr ⟨q, List.mem_of_find?_eq_some hf, hq⟩

theorem not_any_of_dictGet_none {lib : Library} {t : String}
    (h : dictGet lib t = none) : lib.any (fun p => p.1 == t) = false := by
  unfold dictGet at h
  cases hf : lib.find? (fun p => p.1 == t) with
  | some q =>
    rw [hf] at h
    simp at h
  | none =>
    rw [List.find?_eq_none] at hf
    cases hany : lib.any (fun p => p.1 == t) with
    | false => rfl
    | true =>
      obtain ⟨x, hx, hpx⟩ := List.any_eq_true.mp hany
      exact absurd hpx (hf x hx)

theorem find?_map_reset (lib : Library) (t : String) :
    (lib.map (fun p =>
        if p.1 == t then (p.1, { p.2 with current_index := 0 }) else p)).find?
      (fun p => p.1 == t) =
    (lib.find? (fun p => p.1 == t)).map
      (fun p => (p.1, { p.2 with current_index := 0 })) := by
  induction lib with
  | nil => rfl
  | cons a tl ih =>
    rw [List.map_cons]
    by_cases ha : (a.1 == t) = true
    · rw [if_pos ha, List.find?_cons_of_pos _ (by simpa using ha),
        List.find?_cons_of_pos _ (by simpa using ha)]
      rfl
    · rw [if_neg ha, List.find?_cons_of_neg _ (by simpa using ha),
        List.find?_cons_of_neg _ (by simpa using ha)]
      exact ih

theorem dictGet_reset_self {lib : Library} {t : String} {rec : BookRecord}
    (h : dictGet lib t = some rec) :
    dictGet (reset_book_progress lib t) t = some { rec with current_index := 0 } := by
  have hany := any_of_dictGet_some h
  unfold reset_book_progress
  rw [if_pos hany]
  unfold dictGet
  rw [find?_map_reset]
  unfold dictGet at h
  cases hf : lib.find? (fun p => p.1 == t) with
  | none =>
    rw [hf] at h
    simp at h
  | some p =>
    rw [hf] at h
    simp at h
    simp [← h]

theorem find?_map_reset_ne (lib : Library) (t u : String) (hne : u ≠ t) :
    (lib.map (fun p =>
        if p.1 == t then (p.1, { p.2 with current_index := 0 }) else p)).find?
      (fun p => p.1 == u) =
    lib.find? (fun p => p.1 == u) := by
  induction lib with
  | nil => rfl
  | cons a tl ih =>
    rw [List.map_cons]
    by_cases hat : (a.1 == t) = true
    · have ha1 : a.1 = t := by simpa using hat
      rw [if_pos hat, List.find?_cons_of_neg _ (by simp [ha1, Ne.symm hne]),
        List.find?_cons_of_neg _ (by simp [ha1, Ne.symm hne])]
      exact ih
    · rw [if_neg hat]
      by_cases hau : (a.1 == u) = true
      · rw [List.find?_cons_of_pos _ (by simpa using hau),
          List.find?_cons_of_pos _ (by simpa using hau)]
      · rw [List.find?_cons_of_neg _ (by simpa using hau),
          List.find?_cons_of_neg _ (by simpa using hau)]
        exact ih

theorem dictGet_reset_ne (lib : Library) (t u : String) (hne : u ≠ t) :
    dictGet (reset_book_progress lib t) u = dictGet lib u := by
  unfold reset_book_progress
  by_cases hany : lib.any (fun p => p.1 == t) = true
  · rw [if_pos hany]
    unfold dictGet
    rw [find?_map_reset_ne lib t u hne]
  · rw [if_neg hany]

theorem reset_absent {lib : Library} {t : String} (h : dictGet lib t = none) :
    reset_book_progress lib t = lib := by
  unfold reset_book_progress
  rw [not_any_of_dictGet_none h]
  simp

theorem dictGet_reset_index_zero {lib : Library} {t : String} {rec' : BookRecord}
    (h : dictGet (reset_book_progress lib t) t = some rec') :
    rec'.current_index = 0 := by
  cases hg : dictGet lib t with
  | none =>
    rw [reset_absent hg, hg] at h
    cases h
  | some rec =>
    rw [dictGet_reset_self hg] at h
    injection h with h
    rw [← h]

theorem dictGet_delete_self (lib : Library) (t : String) :
    dictGet (delete_book lib t) t = none := by
  unfold delete_book
  by_cases hany : lib.any (fun p => p.1 == t) = true
  · rw [if_pos hany]
    unfold dictGet
    have hnone : (lib.filter (fun p => p.1 != t)).find? (fun p => p.1 == t) = none := by
      rw [List.find?_eq_none]
      intro x hx hpx
      have hkept := (List.mem_filter.mp hx).2
      simp only [bne_iff_ne, ne_eq, decide_eq_true_eq] at hkept
      exact hkept (by simpa using hpx)
    rw [hnone]
    rfl
  · rw [if_neg hany]
    unfold dictGet
    have hnone : lib.find? (fun p => p.1 == t) = none := by
      rw [List.find?_eq_none]
      intro x hx hpx
      exact absurd (List.any_eq_true.mpr ⟨x, hx, hpx⟩) hany
    rw [hnone]
    rfl

theorem find?_filter_ne (lib : Library) (t u : String) (hne : u ≠ t) :
    (lib.filter (fun p => p.1 != t)).find? (fun p => p.1 == u) =
      lib.find? (fun p => p.1 == u) := by
  induction lib with
  | nil => rfl
  | cons a tl ih =>
    by_cases hat : (a.1 != t) = true
    · rw [List.filter_cons_of_pos (by simpa using hat)]
      by_cases hau : (a.1 == u) = true
      · rw [List.find?_cons_of_pos _ (by simpa using hau),
          List.find?_cons_of_pos _ (by simpa using hau)]
      · rw [List.find?_cons_of_neg _ (by simpa using hau),
          List.find?_cons_of_neg _ (by simpa using hau)]
        exact ih
    · have ha1 : a.1 = t := by simpa using hat
      rw [List.filter_cons_of_neg (by simpa using hat),
        List.find?_cons_of_neg _ (by simp [ha1, Ne.symm hne])]
      exact ih

theorem dictGet_delete_ne (lib : Library) (t u : String) (hne : u ≠ t) :
    dictGet (delete_book lib t) u = dictGet lib u := by
  unfold delete_book
  by_cases hany : lib.any (fun p => p.1 == t) = true
  · rw [if_pos hany]
    unfold dictGet
    rw [find?_filter_ne lib t u hne]
  · rw [if_neg hany]

theorem delete_absent {lib : Library} {t : String} (h : dictGet lib t = none) :
    delete_book lib t = lib := by
  unfold delete_book
  rw [not_any_of_dictGet_none h]
  simp

/-!  ## Claim C4: the selection/advancement contract -/

/-- Claim C4: over the spec's data-model states (unique titles,
`totalSegments = len(segments)`), `nextUnread` returns none exactly when no
record satisfies `currentIndex < totalSegments`; otherwise the tuple is built
from the selected record at its cursor `i` (`segmentText = segments[i]`,
`segmentIndex = i`, `isFirst = (i == 0)`, `previousSegment = segments[i-1]`
for `i > 0`, none otherwise) and the saved store holds that record with
`currentIndex = i + 1`. -/
theorem next_unread_spec (books_data : Library) (pick : Nat) (hwf : WF books_data) :
    (get_random_unread_segment pick books_data = none ↔
      available_books books_data = []) ∧
    (available_books books_data = [] ↔
      ∀ p ∈ books_data, ¬ p.2.current_index < p.2.total_segments) ∧
    (∀ (r : SegResult) (lib' : Library),
      get_random_unread_segment pick books_data = some (r, lib') →
      ∃ rec : BookRecord,
        dictGet books_data r.book_title = some rec ∧
        rec.current_index < rec.total_segments ∧
        r.segment_index = rec.current_index ∧
        rec.segments[rec.current_index]? = some r.segment_text ∧
        r.is_first_segment = (rec.current_index == 0) ∧
        r.previous_segment =
          (if 0 < rec.current_index then rec.segments[rec.current_index - 1]? else none) ∧
        (0 < rec.current_index → ∃ prev, r.previous_segment = some prev) ∧
        lib' = dictInsert books_data r.book_title
          { rec with current_index := rec.current_index + 1 } ∧
        dictGet lib' r.book_title =
          some { rec with current_index := rec.current_index + 1 }) := by
  refine ⟨?_, ?_, ?_⟩
  · constructor
    · intro hnone
      by_contra hav
      have hlt : pick % (available_books books_data).length <
          (available_books books_data).length :=
        Nat.mod_lt _ (List.length_pos.mpr hav)
      obtain ⟨a, ha⟩ : ∃ x, (available_books books_data)[pick %
          (available_books books_data).length]? = some x := by
        rw [List.getElem?_eq_getElem hlt]
        exact ⟨_, rfl⟩
      have hmem := List.mem_filter.mp (List.getElem?_mem ha)
      have helig : a.2.current_index < a.2.total_segments := of_decide_eq_true hmem.2
      have hlen : a.2.current_index < a.2.segments.length := by
        have htot := hwf.2 a hmem.1
        omega
      have heq := next_unread_eq pick books_data a.1 a.2 hlen (by simpa using ha)
      rw [heq] at hnone
      cases hnone
    · intro hav
      exact next_eq_none_of_available_nil pick hav
  · unfold available_books
    rw [List.filter_eq_nil_iff]
    constructor
    · intro h p hp hlt
      exact h p hp (by simpa using hlt)
    · intro h p hp
      simpa using h p hp
  · intro r lib' h
    obtain ⟨rec, hmem, helig, hidx, hseg, hfirst, hprev, hlib'⟩ := next_unread_some_inv h
    have hmem' := List.mem_filter.mp hmem
    have hget : dictGet books_data r.book_title = some rec := dictGet_of_mem hwf.1 hmem'.1
    have htot : rec.total_segments = rec.segments.length := by
      have := hwf.2 _ hmem'.1
      exact this
    refine ⟨rec, hget, helig, hidx, hseg, hfirst, hprev, ?_, hlib', ?_⟩
    · intro hpos
      rw [hprev, if_pos hpos]
      have hm1 : rec.current_index - 1 < rec.segments.length := by omega
      exact ⟨_, List.getElem?_eq_getElem hm1⟩
    · rw [hlib']
      exact dictGet_dictInsert_self _ _ _

theorem next_unread_spec_witness :
    get_random_unread_segment 0 [("b", ⟨["x", "y"], 0, 2⟩)] = none ↔
      available_books [("b", ⟨["x", "y"], 0, 2⟩)] = [] :=
  (next_unread_spec [("b", ⟨["x", "y"], 0, 2⟩)] 0 ⟨by decide, by decide⟩).1

/-! ## Claim C6: progress computation -/

/-- Claim C6: `calculate_progress` is `0` when `totalSegments = 0` and
`100 * currentIndex / totalSegments` otherwise, lies in `[0, 100]` under the
cursor invariant, and equals `0` on whatever record a title holds after
`reset`. -/
theorem progress_spec :
    (∀ rec : BookRecord, calculate_progress rec =
        if rec.total_segments = 0 then 0
        else 100 * (rec.current_index : ℚ) / (rec.total_segments : ℚ)) ∧
    (∀ rec : BookRecord, rec.current_index ≤ rec.total_segments →
        0 ≤ calculate_progress rec ∧ calculate_progress rec ≤ 100) ∧
    (∀ (lib : Library) (t : String) (rec' : BookRecord),
        dictGet (reset_book_progress lib t) t = some rec' →
        calculate_progress rec' = 0) := by
  refine ⟨?_, ?_, ?_⟩
  · intro rec
    unfold calculate_progress
    by_cases h : rec.total_segments = 0
    · rw [if_pos h, if_pos h]
    · rw [if_neg h, if_neg h]
      ring
  · intro rec hle
    unfold calculate_progress
    by_cases h : rec.total_segments = 0
    · rw [if_pos h]
      norm_num
    · rw [if_neg h]
      have hpos : (0 : ℚ) < rec.total_segments := by
        have := Nat.pos_of_ne_zero h
        exact_mod_cast this
      constructor
      · positivity
      · have hfrac : (rec.current_index : ℚ) / rec.total_segments ≤ 1 := by
          rw [div_le_one hpos]
          exact_mod_cast hle
        calc (rec.current_index : ℚ) / rec.total_segments * 100 ≤ 1 * 100 := by
              exact mul_le_mul_of_nonneg_right hfrac (by norm_num)
          _ = 100 := by norm_num
  · intro lib t rec' h
    have hz := dictGet_reset_index_zero h
    unfold calculate_progress
    rw [hz]
    simp

theorem progress_spec_witness :
    (0 ≤ calculate_progress ⟨["x"], 1, 1⟩ ∧ calculate_progress ⟨["x"], 1, 1⟩ ≤ 100) ∧
    calculate_progress ⟨["x"], 0, 1⟩ = 0 :=
  ⟨progress_spec.2.1 ⟨["x"], 1, 1⟩ (by decide),
   progress_spec.2.2 [("b", ⟨["x"], 1, 1⟩)] "b" ⟨["x"], 0, 1⟩ (by decide)⟩

/-! ## Claim C7: the cursor invariant is preserved -/

theorem inv_reset {lib : Library} (hinv : Inv lib) (t : String) :
    Inv (reset_book_progress lib t) := by
  unfold reset_book_progress
  by_cases hany : lib.any (fun p => p.1 == t) = true
  · rw [if_pos hany]
    intro p hp
    obtain ⟨q, hq, hEq⟩ := List.mem_map.mp hp
    by_cases hqt : (q.1 == t) = true
    · rw [if_pos hqt] at hEq
      rw [← hEq]
      exact Nat.zero_le _
    · rw [if_neg hqt] at hEq
      rw [← hEq]
      exact hinv q hq
  · rw [if_neg hany]
    exact hinv

theorem inv_foldl_reset {ts : List String} :
    ∀ {lib : Library}, Inv lib → Inv (ts.foldl reset_book_progress lib) := by
  induction ts with
  | nil => intro lib h; exact h
  | cons t ts ih => intro lib h; exact ih (inv_reset h t)

/-- Claim C7: `0 <= currentIndex <= totalSegments` (lower bound inherent to
`Nat`) is preserved by every controller operation, from any state satisfying
it. -/
theorem cursor_invariant_preserved (books_data : Library) (hinv : Inv books_data) :
    (∀ (gemini : Except Unit (List String)) (title content : String),
        Inv (process_uploaded_book gemini books_data title content)) ∧
    (∀ (pick : Nat) (r : SegResult) (lib' : Library),
        get_random_unread_segment pick books_data = some (r, lib') → Inv lib') ∧
    (∀ t, Inv (reset_book_progress books_data t)) ∧
    Inv (reset_all_progress books_data) ∧
    (∀ t, Inv (delete_book books_data t)) := by
  refine ⟨?_, ?_, ?_, ?_, ?_⟩
  · intro gemini title content p hp
    rcases mem_dictInsert hp with h | h
    · rw [h]
      exact Nat.zero_le _
    · exact hinv p h
  · intro pick r lib' h
    obtain ⟨rec, hmem, helig, _, _, _, _, hlib'⟩ := next_unread_some_inv h
    subst hlib'
    intro p hp
    rcases mem_dictInsert hp with h | h
    · rw [h]
      simpa using helig
    · exact hinv p h
  · intro t
    exact inv_reset hinv t
  · exact inv_foldl_reset hinv
  · intro t
    unfold delete_book
    by_cases hany : books_data.any (fun p => p.1 == t) = true
    · rw [if_pos hany]
      intro p hp
      exact hinv p (List.mem_filter.mp hp).1
    · rw [if_neg hany]
      exact hinv

theorem cursor_invariant_preserved_witness :
    Inv [("b", ⟨["x"], 0, 1⟩)] ∧
    Inv (reset_book_progress [("b", ⟨["x"], 0, 1⟩)] "b") :=
  ⟨by decide, (cursor_invariant_preserved [("b", ⟨["x"], 0, 1⟩)] (by decide)).2.2.1 "b"⟩

/-! ## Claim C8: uniform selection over the fresh eligible set -/

/-- Claim C8: the selected entry is exactly the `(pick mod n)`-th element of
the eligible list computed from the store passed to this call (so for `pick`
uniformly distributed, each of the `n` eligible titles is selected equally
often), and after the call the advanced cursor is what the next call's
eligibility computation sees: the selected title stays eligible iff
`i + 1 < totalSegments`, every other title's record — hence eligibility — is
unchanged. -/
theorem selection_uniform_and_fresh (books_data : Library) (pick : Nat)
    (hwf : WF books_data) :
    (∀ (title : String) (rec : BookRecord),
        (available_books books_data)[pick % (available_books books_data).length]? =
          some (title, rec) →
        ∃ lib', get_random_unread_segment pick books_data =
          some (⟨title, rec.segments.getD rec.current_index "", rec.current_index,
                 rec.current_index == 0,
                 if 0 < rec.current_index then rec.segments[rec.current_index - 1]?
                 else none⟩, lib')) ∧
    (∀ (r : SegResult) (lib' : Library),
        get_random_unread_segment pick books_data = some (r, lib') →
        ∃ rec : BookRecord,
          dictGet books_data r.book_title = some rec ∧
          rec.current_index < rec.total_segments ∧
          ((∃ rc, dictGet lib' r.book_title = some rc ∧
              rc.current_index < rc.total_segments) ↔
            rec.current_index + 1 < rec.total_segments) ∧
          (∀ t, t ≠ r.book_title → dictGet lib' t = dictGet books_data t)) := by
  constructor
  · intro title rec hchosen
    have hmem := List.mem_filter.mp (List.getElem?_mem hchosen)
    have helig : rec.current_index < rec.total_segments := of_decide_eq_true hmem.2
    have hlen : rec.current_index < rec.segments.length := by
      have htot := hwf.2 _ hmem.1
      simp only at htot
      omega
    exact ⟨_, next_unread_eq pick books_data title rec hlen hchosen⟩
  · intro r lib' h
    obtain ⟨rec, hmem, helig, _, _, _, _, hlib'⟩ := next_unread_some_inv h
    have hget := dictGet_of_mem hwf.1 (List.mem_filter.mp hmem).1
    subst hlib'
    refine ⟨rec, hget, helig, ?_, fun t ht => dictGet_dictInsert_ne _ _ _ _ ht⟩
    constructor
    · rintro ⟨rc, hrc, hlt⟩
      rw [dictGet_dictInsert_self] at hrc
      injection hrc with hrc
      rw [← hrc] at hlt
      simpa using hlt
    · intro hlt
      exact ⟨{ rec with current_index := rec.current_index + 1 },
        dictGet_dictInsert_self _ _ _, by simpa using hlt⟩

theorem selection_uniform_and_fresh_witness :
    ∃ lib', get_random_unread_segment 0 [("b", ⟨["x", "y"], 0, 2⟩)] =
      some (⟨"b", "x", 0, true, none⟩, lib') :=
  (selection_uniform_and_fresh [("b", ⟨["x", "y"], 0, 2⟩)] 0 ⟨by decide, by decide⟩).1
    "b" ⟨["x", "y"], 0, 2⟩ (by decide)

/-! ## Claim C10: frame conditions -/

/-- Claim C10: each mutating operation touches at most one record:
`nextUnread` rewrites only the selected title's record, and only its
`current_index` field (by `+1`); `reset` rewrites only the given title's
record, and only its `current_index` (to 0); `delete` removes only the given
title; `reset` and `delete` are no-ops when the title is absent. -/
theorem frame_conditions (books_data : Library) (hwf : WF books_data) :
    (∀ (pick : Nat) (r : SegResult) (lib' : Library),
        get_random_unread_segment pick books_data = some (r, lib') →
        ∃ rec : BookRecord,
          dictGet books_data r.book_title = some rec ∧
          dictGet lib' r.book_title =
            some { rec with current_index := rec.current_index + 1 } ∧
          ∀ t, t ≠ r.book_title → dictGet lib' t = dictGet books_data t) ∧
    (∀ (t : String) (rec : BookRecord), dictGet books_data t = some rec →
        dictGet (reset_book_progress books_data t) t =
          some { rec with current_index := 0 } ∧
        ∀ u, u ≠ t →
          dictGet (reset_book_progress books_data t) u = dictGet books_data u) ∧
    (∀ t, dictGet books_data t = none →
        reset_book_progress books_data t = books_data) ∧
    (∀ t, dictGet (delete_book books_data t) t = none ∧
        ∀ u, u ≠ t → dictGet (delete_book books_data t) u = dictGet books_data u) ∧
    (∀ t, dictGet books_data t = none → delete_book books_data t = books_data) := by
  refine ⟨?_, ?_, ?_, ?_, ?_⟩
  · intro pick r lib' h
    obtain ⟨rec, hmem, _, _, _, _, _, hlib'⟩ := next_unread_some_inv h
    have hget : dictGet books_data r.book_title = some rec :=
      dictGet_of_mem hwf.1 (List.mem_filter.mp hmem).1
    subst hlib'
    exact ⟨rec, hget, dictGet_dictInsert_self _ _ _,
      fun t ht => dictGet_dictInsert_ne _ _ _ _ ht⟩
  · intro t rec h
    exact ⟨dictGet_reset_self h, fun u hu => dictGet_reset_ne _ _ _ hu⟩
  · intro t h
    exact reset_absent h
  · intro t
    exact ⟨dictGet_delete_self _ _, fun u hu => dictGet_delete_ne _ _ _ hu⟩
  · intro t h
    exact delete_absent h

theorem frame_conditions_witness :
    dictGet [("b", ⟨["x"], 0, 1⟩)] "z" = none ∧
    reset_book_progress [("b", ⟨["x"], 0, 1⟩)] "z" = [("b", ⟨["x"], 0, 1⟩)] :=
  ⟨by decide,
   (frame_conditions [("b", ⟨["x"], 0, 1⟩)] ⟨by decide, by decide⟩).2.2.1 "z" (by decide)⟩

/-! ## Claim C5: single-book traversal -/

/-- A sequence of `nextUnread` calls: for each pick in `picks`, call
`get_random_unread_segment` on the current store, record the returned
segment index (`none` when the call returns none, leaving the store as is),
and thread the saved store into the next call. -/
def nextTrace : List Nat → Library → List (Option Nat) × Library
  | [], lib => ([], lib)
  | p :: ps, lib =>
    match get_random_unread_segment p lib with
    | none =>
      let rest := nextTrace ps lib
      (none :: rest.1, rest.2)
    | some (res, lib') =>
      let rest := nextTrace ps lib'
      (some res.segment_index :: rest.1, rest.2)

theorem single_step (title : String) (segs : List String) (k p : Nat)
    (hk : k < segs.length) :
    get_random_unread_segment p [(title, ⟨segs, k, segs.length⟩)] =
      some (⟨title, segs.getD k "", k, k == 0,
             if 0 < k then segs[k - 1]? else none⟩,
            [(title, ⟨segs, k + 1, segs.length⟩)]) := by
  have havail : available_books [(title, (⟨segs, k, segs.length⟩ : BookRecord))] =
      [(title, ⟨segs, k, segs.length⟩)] := by
    unfold available_books
    rw [List.filter_cons_of_pos (by simpa using hk)]
    rfl
  have hchosen : (available_books [(title, (⟨segs, k, segs.length⟩ : BookRecord))])[p %
      (available_books [(title, (⟨segs, k, segs.length⟩ : BookRecord))]).length]? =
      some (title, (⟨segs, k, segs.length⟩ : BookRecord)) := by
    rw [havail]
    simp [Nat.mod_one]
  have h := next_unread_eq p _ title ⟨segs, k, segs.length⟩ (by simpa using hk) hchosen
  rw [h]
  unfold dictInsert
  simp

theorem single_exhausted (title : String) (segs : List String) (p : Nat) :
    get_random_unread_segment p [(title, ⟨segs, segs.length, segs.length⟩)] = none := by
  apply next_eq_none_of_available_nil
  unfold available_books
  rw [List.filter_cons_of_neg (by simp)]
  rfl

theorem nextTrace_single (title : String) (segs : List String) :
    ∀ (ps : List Nat) (k : Nat), k ≤ segs.length →
      ps.length = segs.length - k + 1 →
      (nextTrace ps [(title, ⟨segs, k, segs.length⟩)]).1 =
        (List.range' k (segs.length - k)).map some ++ [none] := by
  intro ps
  induction ps with
  | nil =>
    intro k hk hlen
    simp at hlen
  | cons p ps ih =>
    intro k hk hlen
    simp only [List.length_cons] at hlen
    by_cases hkn : k < segs.length
    · simp only [nextTrace]
      rw [single_step title segs k p hkn]
      have hrec := ih (k + 1) hkn (by omega)
      simp only []
      rw [hrec]
      have hsucc : segs.length - k = (segs.length - (k + 1)) + 1 := by omega
      rw [hsucc, List.range'_succ]
      simp
    · have hke : k = segs.length := by omega
      subst hke
      simp only [nextTrace]
      rw [single_exhausted]
      have hps : ps = [] := by
        have hlen0 : ps.length = 0 := by omega
        exact List.length_eq_zero.mp hlen0
      subst hps
      simp [nextTrace]

/-- Claim C5: on a one-book library with `n = totalSegments ≥ 1` segments and
cursor 0, `n + 1` successive `nextUnread` calls (whatever the random draws)
return segment indices `0, 1, ..., n-1` in order and then none. -/
theorem single_book_traversal (title : String) (segs : List String) (ps : List Nat)
    (h1 : segs ≠ []) (h2 : ps.length = segs.length + 1) :
    (nextTrace ps [(title, ⟨segs, 0, segs.length⟩)]).1 =
      (List.range segs.length).map some ++ [none] := by
  have h := nextTrace_single title segs ps 0 (Nat.zero_le _) (by omega)
  rw [h, List.range_eq_range']
  simp

theorem single_book_traversal_witness :
    (["x"] : List String) ≠ [] ∧
    (nextTrace [0, 0] [("b", ⟨["x"], 0, (["x"] : List String).length⟩)]).1 =
      (List.range (["x"] : List String).length).map some ++ [none] :=
  ⟨by decide, single_book_traversal "b" ["x"] [0, 0] (by decide) (by decide)⟩

/-! ## Claim C9: the summarizer -/

/-- The summary prompt of `generate_summary_with_gemini`
(lines 165-176 of `app.py`). -/
def summaryPrompt (book_title prev_context curr_context : String) : String :=
  "You are reading a book titled \"" ++ book_title ++ "\". \n\n" ++
  "Based on where we left off and what comes next, write a 2-line summary " ++
  "(maximum 2 sentences) that reminds the reader what was happening.\n\n" ++
  "Previous section ended with:\n" ++ prev_context ++ "\n\n" ++
  "Current section begins with:\n" ++ curr_context ++ "\n\n" ++
  "Write a concise 2-line summary starting with \"Where we left off:\" " ++
  "that bridges these sections.\n"

/-- Line 158 of `app.py`: `previous_segment.split()[-1000:]` — the last 1000
words of the previous segment (all of them when there are fewer). -/
def prevContextWords (previous_segment : String) : List String :=
  (pySplit previous_segment).drop ((pySplit previous_segment).length - 1000)

/-- Line 162 of `app.py`: `current_segment.split()[:500]` — the first 500
words of the current segment (all of them when there are fewer). -/
def currContextWords (current_segment : String) : List String :=
  (pySplit current_segment).take 500

/-- `generate_summary_with_gemini` (lines 148-185 of `app.py`).  The `gemini`
oracle maps the prompt that is sent to the external response
(`Except.error`: any exception in the try branch).  On success the stripped
response text is returned; on any failure the fixed fallback sentence. -/
def generate_summary_with_gemini (gemini : String → Except Unit String)
    (book_title previous_segment current_segment : String) : String :=
  match gemini (summaryPrompt book_title
      (String.intercalate " " (prevContextWords previous_segment))
      (String.intercalate " " (currContextWords current_segment))) with
  | Except.ok response => response.trim
  | Except.error _ => "Where we left off: Continuing from the previous segment..."

/-- Claim C9: the summarizer always returns a string and never propagates a
failure — on any oracle error it returns the fixed fallback sentence — and
the context sent in the prompt is bounded: the previous-segment context is a
suffix of its word sequence of length `min 1000 len` (the whole sequence when
`len ≤ 1000`), the current-segment context a prefix of length `min 500 len`
(the whole sequence when `len ≤ 500`). -/
theorem summary_total_and_bounded (gemini : String → Except Unit String)
    (title prev curr : String) :
    (∀ e, gemini (summaryPrompt title
          (String.intercalate " " (prevContextWords prev))
          (String.intercalate " " (currContextWords curr))) = Except.error e →
        generate_summary_with_gemini gemini title prev curr =
          "Where we left off: Continuing from the previous segment...") ∧
    (∀ s, gemini (summaryPrompt title
          (String.intercalate " " (prevContextWords prev))
          (String.intercalate " " (currContextWords curr))) = Except.ok s →
        generate_summary_with_gemini gemini title prev curr = s.trim) ∧
    ((pySplit prev).take ((pySplit prev).length - 1000) ++ prevContextWords prev =
      pySplit prev) ∧
    (prevContextWords prev).length = min 1000 (pySplit prev).length ∧
    ((pySplit prev).length ≤ 1000 → prevContextWords prev = pySplit prev) ∧
    (currContextWords curr ++ (pySplit curr).drop 500 = pySplit curr) ∧
    (currContextWords curr).length = min 500 (pySplit curr).length ∧
    ((pySplit curr).length ≤ 500 → currContextWords curr = pySplit curr) := by
  refine ⟨?_, ?_, ?_, ?_, ?_, ?_, ?_, ?_⟩
  · intro e he
    unfold generate_summary_with_gemini
    rw [he]
  · intro s hs
    unfold generate_summary_with_gemini
    rw [hs]
  · exact List.take_append_drop _ _
  · unfold prevContextWords
    rw [List.length_drop]
    omega
  · intro hle
    unfold prevContextWords
    have h0 : (pySplit prev).length - 1000 = 0 := by omega
    rw [h0, List.drop_zero]
  · exact List.take_append_drop _ _
  · unfold currContextWords
    rw [List.length_take]
  · intro hle
    unfold currContextWords
    exact List.take_of_length_le hle

theorem summary_total_and_bounded_witness :
    generate_summary_with_gemini (fun _ => Except.error ()) "t" "a b" "c d" =
      "Where we left off: Continuing from the previous segment..." :=
  (summary_total_and_bounded (fun _ => Except.error ()) "t" "a b" "c d").1 () rfl

end Reader
